import Mathlib

/-!
Verification of the two original components of `api/ocr.js`:
the hand-rolled multipart/form-data decoder (`parseFormData`) and the
recognition pipeline configurator (`getWorkerConfig` / `postProcessText` /
`applyLatvianCorrections`).  JavaScript strings and buffers are modelled as
Lean `String`s (lists of characters); the JS regular-expression matches used
by the source are implemented as explicit left-to-right scanning functions
with the same semantics.
-/

set_option maxHeartbeats 1000000
set_option maxRecDepth 100000

/-! ## JavaScript string primitives -/

/-- The ECMAScript whitespace set used by `String.prototype.trim`. -/
def isJsWs (c : Char) : Bool :=
  c == ' ' || c == '\t' || c == '\n' || c == '\r' || c == '\x0b' || c == '\x0c' ||
  c == '\u00A0' || c == '\u1680' ||
  (decide (0x2000 ≤ c.toNat) && decide (c.toNat ≤ 0x200A)) ||
  c == '\u2028' || c == '\u2029' || c == '\u202F' || c == '\u205F' ||
  c == '\u3000' || c == '\uFEFF'

/-- `String.prototype.trim`: drop leading and trailing whitespace. -/
def jsTrimL (s : List Char) : List Char :=
  ((s.dropWhile isJsWs).reverse.dropWhile isJsWs).reverse

/-- `String.prototype.trim` on `String`. -/
def jsTrimS (s : String) : String := String.mk (jsTrimL s.data)

/-- `String.prototype.includes(pat)`: substring test by left-to-right scan. -/
def containsL (pat : List Char) : List Char → Bool
  | [] => pat.isEmpty
  | c :: rest => pat.isPrefixOf (c :: rest) || containsL pat rest

/-- Generic leftmost regex scan: at each position, if the literal `pre`
matches there, try the continuation `f` on the remainder; on failure resume
scanning at the next position (JS regex backtracking over start positions). -/
def scanFirst (pre : List Char) (f : List Char → Option (List Char)) : List Char → Option (List Char)
  | [] => none
  | c :: rest =>
    if pre.isPrefixOf (c :: rest) then
      match f ((c :: rest).drop pre.length) with
      | some r => some r
      | none => scanFirst pre f rest
    else scanFirst pre f rest

/-- Continuation of the capture group `([^stop]+)stop`: a nonempty maximal
run of non-`stop` characters that must be followed by `stop`. -/
def capAt (stop : Char) (after : List Char) : Option (List Char) :=
  if after.takeWhile (fun d => d != stop) ≠ [] ∧
     after.drop (after.takeWhile (fun d => d != stop)).length ≠ [] then
    some (after.takeWhile (fun d => d != stop))
  else none

/-- Continuation of the capture group `([^\r\n]+)` at end of pattern: a
nonempty maximal run of non-CR/LF characters. -/
def lineAt (after : List Char) : Option (List Char) :=
  if after.takeWhile (fun d => d != '\r' && d != '\n') ≠ [] then
    some (after.takeWhile (fun d => d != '\r' && d != '\n'))
  else none

/-- The JS regex match of `pre([^stop]+)stop`, e.g. `name="([^"]+)"`:
return the first capture, scanning start positions left to right. -/
def matchCapture (pre : List Char) (stop : Char) (s : List Char) : Option (List Char) :=
  scanFirst pre (capAt stop) s

/-- The JS regex match `Content-Type: ([^\r\n]+)`: return the first capture,
scanning start positions left to right. -/
def matchLine (pre : List Char) (s : List Char) : Option (List Char) :=
  scanFirst pre lineAt s

/-- Worker for `splitOnL`: JS `String.prototype.split` with a nonempty
separator `c₀ :: sep'`, accumulating the current piece in reverse.  The
fuel argument (at least the length of the input) keeps the recursion
structural so that concrete inputs evaluate by reduction. -/
def splitGo (c₀ : Char) (sep' : List Char) : Nat → List Char → List Char → List (List Char)
  | _, acc, [] => [acc.reverse]
  | 0, acc, s => [acc.reverse ++ s]
  | fuel + 1, acc, c :: rest =>
    if (c₀ :: sep').isPrefixOf (c :: rest) then
      acc.reverse :: splitGo c₀ sep' fuel [] (rest.drop sep'.length)
    else splitGo c₀ sep' fuel (c :: acc) rest

/-- JS `String.prototype.split(sep)` for a nonempty separator: the list of
pieces between leftmost non-overlapping occurrences of `sep`. -/
def splitOnL (sep s : List Char) : List (List Char) :=
  match sep with
  | [] => [s]
  | c :: sep' => splitGo c sep' s.length [] s

/-- JS object property assignment `m[k] = v`: overwrite in place if the key
exists, otherwise append. -/
def objSet {α : Type} (m : List (String × α)) (k : String) (v : α) : List (String × α) :=
  if m.any (fun p => p.1 == k) then
    m.map (fun p => if p.1 == k then (k, v) else p)
  else m ++ [(k, v)]

/-! ## Data model of the multipart decoder -/

/-- A decoded file part (`files[name]` in the source): filename, declared
content type, and the raw payload bytes (modelled as a string). -/
structure FileAttachment where
  filename : String
  type : String
  buffer : String
deriving DecidableEq, Repr

/-- The decoder's output: `fields` and `files`, keyed by part name.  A field
value is `Option String` because the source stores `value?.trim()`, which is
`undefined` when the segment has no `\r\n\r\n` separator. -/
structure ParsedForm where
  fields : List (String × Option String)
  files : List (String × FileAttachment)
deriving DecidableEq, Repr

/-- Literal `"Content-Disposition"` tested with `part.includes`. -/
def cdLit : List Char := "Content-Disposition".data

/-- Literal of the regex `name="([^"]+)"`. -/
def nameLit : List Char := "name=\"".data

/-- Literal `"filename=\""` tested with `part.includes` and used by the
regex `filename="([^"]+)"`. -/
def fnLit : List Char := "filename=\"".data

/-- Literal of the regex `Content-Type: ([^\r\n]+)`. -/
def ctLit : List Char := "Content-Type: ".data

/-- The blank-line separator `\r\n\r\n`. -/
def crlf2 : List Char := "\r\n\r\n".data

/-- The per-segment body of the decoder's loop over `data.split('--'+boundary)`:
skip segments without `Content-Disposition` or without a `name="..."` match;
otherwise classify by `part.includes('filename="')` and store the trimmed
second element of `part.split('\r\n\r\n')`. -/
def processPart (form : ParsedForm) (part : List Char) : ParsedForm :=
  if containsL cdLit part then
    match matchCapture nameLit '"' part with
    | none => form
    | some n =>
      let value : Option (List Char) := (splitOnL crlf2 part)[1]?
      if containsL fnLit part then
        let filename : String :=
          match matchCapture fnLit '"' part with
          | some f => String.mk f
          | none => "unknown"
        let ctype : String :=
          match matchLine ctLit part with
          | some t => String.mk t
          | none => "application/octet-stream"
        { form with
            files := objSet form.files (String.mk n)
              ⟨filename, ctype, String.mk (jsTrimL (value.getD []))⟩ }
      else
        { form with
            fields := objSet form.fields (String.mk n)
              (value.map (fun v => String.mk (jsTrimL v))) }
  else form

/-- `req.headers['content-type']?.split('boundary=')[1]`. -/
def extractBoundary (contentType : Option String) : Option String :=
  match contentType with
  | none => none
  | some s => ((splitOnL "boundary=".data s.data)[1]?).map String.mk

/-- The decoder `parseFormData`: derive the boundary from the content-type
header, fail with `"No boundary found"` when it is missing or empty (JS
falsiness), otherwise split the body on `--<boundary>` and fold the
per-segment processing over the pieces. -/
def parseFormData (contentType : Option String) (body : String) : Except String ParsedForm :=
  match extractBoundary contentType with
  | none => Except.error "No boundary found"
  | some boundary =>
    if boundary = "" then Except.error "No boundary found"
    else Except.ok ((splitOnL ("--" ++ boundary).data body.data).foldl processPart ⟨[], []⟩)

/-! ## Recognition pipeline configurator -/

/-- `baseConfig` of `getWorkerConfig`. -/
def baseConfig : List (String × String) :=
  [("tessedit_pageseg_mode", "6"),
   ("tessedit_ocr_engine_mode", "1"),
   ("preserve_interword_spaces", "1"),
   ("tessedit_create_hocr", "0"),
   ("tessedit_create_tsv", "0"),
   ("tessedit_create_boxfile", "0")]

/-- `modeConfigs[mode]`; an unknown mode yields `[]`, modelling the no-op
spread of `undefined`. -/
def modeConfigs (mode : String) : List (String × String) :=
  if mode = "fast" then
    [("tessedit_pageseg_mode", "6"), ("tessedit_ocr_engine_mode", "1")]
  else if mode = "advanced" then
    [("tessedit_pageseg_mode", "3"), ("tessedit_ocr_engine_mode", "1"),
     ("textord_min_linesize", "2.5"), ("textord_old_baselines", "0")]
  else if mode = "handwriting" then
    [("tessedit_pageseg_mode", "6"), ("tessedit_ocr_engine_mode", "1"),
     ("textord_min_linesize", "2.0"),
     ("tessedit_char_whitelist",
      "ABCDEFGHIJKLMNOPQRSTUVWXYZabcdefghijklmnopqrstuvwxyz0123456789 .,!?'\"-")]
  else []

/-- `languageConfigs[language]`; an unknown language yields `[]`. -/
def languageConfigs (language : String) : List (String × String) :=
  if language = "lav" then
    [("tessedit_char_whitelist",
      "ABCDEFGHIJKLMNOPQRSTUVWXYZabcdefghijklmnopqrstuvwxyzĀāČčĒēĢģĪīĶķĻļŅņŠšŪūŽž0123456789 .,!?'\"-")]
  else if language = "rus" then
    [("tessedit_char_whitelist",
      "АБВГДЕЁЖЗИЙКЛМНОПРСТУФХЦЧШЩЪЫЬЭЮЯабвгдеёжзийклмнопрстуфхцчшщъыьэюя0123456789 .,!?'\"-")]
  else []

/-- JS object spread `{...a, ...b}`: keys of `a` in order with values
overridden by `b` on collision, then the keys of `b` not in `a`. -/
def jsMerge (a b : List (String × String)) : List (String × String) :=
  a.map (fun p => match List.lookup p.1 b with | some v => (p.1, v) | none => p) ++
  b.filter (fun p => (List.lookup p.1 a).isNone)

/-- `getWorkerConfig(mode, language)`: layered spread
`{...baseConfig, ...modeConfigs[mode], ...languageConfigs[language]}`. -/
def getWorkerConfig (mode language : String) : List (String × String) :=
  jsMerge (jsMerge baseConfig (modeConfigs mode)) (languageConfigs language)

/-! ## Post-processing -/

/-- `replace(/\n{3,}/g, '\n\n')`: whenever three or more newlines are ahead,
drop newlines until exactly two remain of that run. -/
def collapseNewlines : List Char → List Char
  | [] => []
  | c :: rest =>
    if c = '\n' ∧ rest.take 2 = ['\n', '\n'] then collapseNewlines rest
    else c :: collapseNewlines rest

/-- `replace(/[lI]/g, 'I')` on a single character. -/
def fixLI (c : Char) : Char := if c = 'l' ∨ c = 'I' then 'I' else c

/-- `replace(/rn/g, 'm')`: leftmost non-overlapping replacement. -/
def fixRn : List Char → List Char
  | [] => []
  | [c] => [c]
  | c :: d :: rest =>
    if c = 'r' ∧ d = 'n' then 'm' :: fixRn rest
    else c :: fixRn (d :: rest)

/-- `replace(/cl/g, 'd')`: leftmost non-overlapping replacement. -/
def fixCl : List Char → List Char
  | [] => []
  | [c] => [c]
  | c :: d :: rest =>
    if c = 'c' ∧ d = 'l' then 'd' :: fixCl rest
    else c :: fixCl (d :: rest)

/-- The Latvian diacritic-stripping table of `applyLatvianCorrections`. -/
def latvianFix (c : Char) : Char :=
  if c = 'ā' then 'a' else if c = 'č' then 'c' else if c = 'ē' then 'e'
  else if c = 'ģ' then 'g' else if c = 'ī' then 'i' else if c = 'ķ' then 'k'
  else if c = 'ļ' then 'l' else if c = 'ņ' then 'n' else if c = 'š' then 's'
  else if c = 'ū' then 'u' else if c = 'ž' then 'z' else c

/-- `applyLatvianCorrections`: character-by-character table replacement. -/
def applyLatvianCorrections (text : String) : String :=
  String.mk (text.data.map latvianFix)

/-- `postProcessText(text, language)`: collapse newline runs, apply the three
confusion fixes, apply the Latvian table exactly when `language === 'lav'`,
then trim. -/
def postProcessText (text language : String) : String :=
  let p1 := collapseNewlines text.data
  let p2 := fixCl (fixRn (p1.map fixLI))
  let p3 := if language = "lav" then (applyLatvianCorrections (String.mk p2)).data else p2
  String.mk (jsTrimL p3)

/-! ## Basic lemmas about the string primitives -/

theorem inf_of_pref {l s : List Char} (h : l <+: s) : l <:+: s := by
  obtain ⟨t, ht⟩ := h
  exact ⟨[], t, by simpa using ht⟩

theorem inf_cons_of_inf {l s : List Char} {c : Char} (h : l <:+: s) : l <:+: c :: s := by
  obtain ⟨u, v, hv⟩ := h
  exact ⟨c :: u, v, by simp [hv]⟩

theorem not_inf_of_not_inf_cons {l s : List Char} {c : Char}
    (h : ¬ l <:+: c :: s) : ¬ l <:+: s :=
  fun hs => h (inf_cons_of_inf hs)

theorem containsL_iff (pat : List Char) : ∀ s : List Char, containsL pat s = true ↔ pat <:+: s
  | [] => by simp [containsL, List.isEmpty_iff]
  | c :: rest => by
    rw [containsL]
    simp only [Bool.or_eq_true, containsL_iff pat rest, List.isPrefixOf_iff_prefix,
      List.infix_cons_iff]

theorem containsL_eq_false {pat s : List Char} (h : ¬ pat <:+: s) : containsL pat s = false := by
  rw [Bool.eq_false_iff]
  intro hc
  exact h ((containsL_iff pat s).mp hc)

theorem containsL_eq_true {pat s : List Char} (h : pat <:+: s) : containsL pat s = true :=
  (containsL_iff pat s).mpr h

theorem splitGo_fuel (c₀ : Char) (sep' : List Char) :
    ∀ (f1 : Nat) (s : List Char) (f2 : Nat) (acc : List Char),
      s.length ≤ f1 → s.length ≤ f2 →
      splitGo c₀ sep' f1 acc s = splitGo c₀ sep' f2 acc s
  | f1, [], f2, acc, _, _ => by cases f1 <;> cases f2 <;> rfl
  | 0, c :: rest, _, acc, h1, _ => by simp at h1
  | _ + 1, c :: rest, 0, acc, _, h2 => by simp at h2
  | f1 + 1, c :: rest, f2 + 1, acc, h1, h2 => by
    simp only [List.length_cons] at h1 h2
    simp only [splitGo]
    split
    · rw [splitGo_fuel c₀ sep' f1 (rest.drop sep'.length) f2 []
        (by simp only [List.length_drop]; omega) (by simp only [List.length_drop]; omega)]
    · rw [splitGo_fuel c₀ sep' f1 rest f2 (c :: acc) (by omega) (by omega)]

theorem splitGo_no_occ (c₀ : Char) (sep' : List Char) :
    ∀ (s : List Char) (fuel : Nat) (acc : List Char), s.length ≤ fuel →
      ¬ ((c₀ :: sep') <:+: s) →
      splitGo c₀ sep' fuel acc s = [acc.reverse ++ s]
  | [], fuel, acc, _, _ => by cases fuel <;> simp [splitGo]
  | c :: rest, 0, acc, hf, _ => by simp at hf
  | c :: rest, fuel + 1, acc, hf, h => by
    rw [splitGo]
    have hp : ((c₀ :: sep').isPrefixOf (c :: rest)) = false := by
      rw [Bool.eq_false_iff]
      intro hq
      exact h (inf_of_pref (List.isPrefixOf_iff_prefix.mp hq))
    rw [if_neg (by simp only [hp]; exact Bool.false_ne_true)]
    rw [splitGo_no_occ c₀ sep' rest fuel (c :: acc)
      (by simp only [List.length_cons] at hf; omega) (not_inf_of_not_inf_cons h)]
    simp

/-- A prefix of `p ++ sep ++ rest` no longer than `p ++ sep.dropLast` is an
infix of the latter; used to rule out separator matches strictly inside `p`. -/
theorem pref_to_short_inf {sep p rest : List Char} (hsep : sep ≠ []) (hp : p ≠ [])
    (h : sep <+: p ++ sep ++ rest) : sep <:+: (p ++ sep.dropLast) := by
  have hlast := List.dropLast_append_getLast hsep
  have hpref : (p ++ sep.dropLast) <+: p ++ sep ++ rest := by
    refine ⟨[sep.getLast hsep] ++ rest, ?_⟩
    have : p ++ sep.dropLast ++ ([sep.getLast hsep] ++ rest) = p ++ (sep.dropLast ++ [sep.getLast hsep]) ++ rest := by
      simp [List.append_assoc]
    rw [this, hlast]
  have hlen : sep.length ≤ (p ++ sep.dropLast).length := by
    have h1 : 1 ≤ p.length := by
      cases p with
      | nil => exact absurd rfl hp
      | cons a t => simp
    have h2 : sep.length - 1 + 1 = sep.length := by
      cases sep with
      | nil => exact absurd rfl hsep
      | cons a t => simp
    simp only [List.length_append, List.length_dropLast]
    omega
  exact inf_of_pref (List.prefix_of_prefix_length_le h hpref hlen)

theorem splitGo_junction (c₀ : Char) (sep' : List Char) :
    ∀ (p : List Char) (fuel : Nat) (acc rest : List Char),
      (p ++ (c₀ :: sep') ++ rest).length ≤ fuel →
      ¬ ((c₀ :: sep') <:+: (p ++ (c₀ :: sep').dropLast)) →
      splitGo c₀ sep' fuel acc (p ++ (c₀ :: sep') ++ rest) =
        (acc.reverse ++ p) :: splitGo c₀ sep' rest.length [] rest
  | [], fuel, acc, rest, hf, _ => by
    cases fuel with
    | zero => simp at hf
    | succ g =>
      have hshape : ([] : List Char) ++ (c₀ :: sep') ++ rest = c₀ :: (sep' ++ rest) := by simp
      rw [hshape, splitGo]
      rw [if_pos (by simp)]
      rw [List.drop_left' (rfl : sep'.length = sep'.length)]
      rw [splitGo_fuel c₀ sep' g rest rest.length []
        (by rw [hshape] at hf; simp only [List.length_cons, List.length_append] at hf; omega)
        (le_refl _)]
      simp
  | a :: p', fuel, acc, rest, hf, h => by
    cases fuel with
    | zero => simp at hf
    | succ g =>
      have hshape : (a :: p') ++ (c₀ :: sep') ++ rest = a :: (p' ++ (c₀ :: sep') ++ rest) := by
        simp
      rw [hshape, splitGo]
      have hp : ((c₀ :: sep').isPrefixOf (a :: (p' ++ (c₀ :: sep') ++ rest))) = false := by
        rw [Bool.eq_false_iff]
        intro hq
        have hq' : (c₀ :: sep') <+: (a :: p') ++ (c₀ :: sep') ++ rest := by
          rw [hshape]
          exact List.isPrefixOf_iff_prefix.mp hq
        exact h (pref_to_short_inf (by simp) (by simp) hq')
      rw [if_neg (by simp only [hp]; exact Bool.false_ne_true)]
      have h' : ¬ ((c₀ :: sep') <:+: (p' ++ (c₀ :: sep').dropLast)) := by
        apply not_inf_of_not_inf_cons (c := a)
        simpa using h
      rw [splitGo_junction c₀ sep' p' g (a :: acc) rest
        (by rw [hshape] at hf; simp only [List.length_cons] at hf; omega) h']
      simp

theorem splitOnL_no_occ {sep : List Char} (s : List Char) (hsep : sep ≠ [])
    (h : ¬ sep <:+: s) : splitOnL sep s = [s] := by
  cases sep with
  | nil => exact absurd rfl hsep
  | cons c₀ sep' =>
    show splitGo c₀ sep' s.length [] s = [s]
    rw [splitGo_no_occ c₀ sep' s s.length [] (le_refl _) h]
    rfl

theorem splitOnL_junction {sep : List Char} (p rest : List Char) (hsep : sep ≠ [])
    (h : ¬ sep <:+: (p ++ sep.dropLast)) :
    splitOnL sep (p ++ sep ++ rest) = p :: splitOnL sep rest := by
  cases sep with
  | nil => exact absurd rfl hsep
  | cons c₀ sep' =>
    show splitGo c₀ sep' (p ++ (c₀ :: sep') ++ rest).length [] (p ++ (c₀ :: sep') ++ rest)
      = p :: splitGo c₀ sep' rest.length [] rest
    rw [splitGo_junction c₀ sep' p (p ++ (c₀ :: sep') ++ rest).length [] rest (le_refl _) h]
    rfl

theorem takeWhile_append_stop (p : Char → Bool) (x : Char) (hx : p x = false) :
    ∀ (l r : List Char), (∀ c ∈ l, p c = true) → (l ++ x :: r).takeWhile p = l
  | [], r, _ => by simp [List.takeWhile_cons, hx]
  | c :: l', r, h => by
    have hc : p c = true := h c (by simp)
    have ih := takeWhile_append_stop p x hx l' r (fun d hd => h d (by simp [hd]))
    simp [List.takeWhile_cons, hc, ih]

theorem capAt_found (stop : Char) (cap rest : List Char)
    (hcap : cap ≠ []) (hstop : stop ∉ cap) :
    capAt stop (cap ++ stop :: rest) = some cap := by
  have hrun : (cap ++ stop :: rest).takeWhile (fun d => d != stop) = cap := by
    apply takeWhile_append_stop
    · simp
    · intro c hc
      simp only [bne_iff_ne, ne_eq]
      intro he
      exact hstop (he ▸ hc)
  rw [capAt, hrun]
  rw [if_pos ⟨hcap, by rw [List.drop_left]; simp⟩]

theorem lineAt_found (cap rest : List Char) (hcap : cap ≠ [])
    (hcr : '\r' ∉ cap) (hlf : '\n' ∉ cap) :
    lineAt (cap ++ '\r' :: rest) = some cap := by
  have hrun : (cap ++ '\r' :: rest).takeWhile (fun d => d != '\r' && d != '\n') = cap := by
    apply takeWhile_append_stop
    · simp
    · intro c hc
      simp only [Bool.and_eq_true, bne_iff_ne, ne_eq]
      exact ⟨fun he => hcr (he ▸ hc), fun he => hlf (he ▸ hc)⟩
  rw [lineAt, hrun]
  rw [if_pos hcap]

theorem scanFirst_found (c₀ : Char) (pre' s : List Char) (f : List Char → Option (List Char))
    (r : List Char) (hf : f s = some r) :
    scanFirst (c₀ :: pre') f ((c₀ :: pre') ++ s) = some r := by
  have hshape : (c₀ :: pre') ++ s = c₀ :: (pre' ++ s) := by simp
  have hafter : ((c₀ :: pre') ++ s).drop (c₀ :: pre').length = s := List.drop_left _ _
  rw [hshape] at hafter ⊢
  rw [scanFirst]
  rw [if_pos (by rw [← hshape]; simp)]
  rw [hafter, hf]

theorem scanFirst_skip (c₀ : Char) (pre' : List Char) (f : List Char → Option (List Char)) :
    ∀ (junk s : List Char),
      ¬ ((c₀ :: pre') <:+: (junk ++ (c₀ :: pre').dropLast)) →
      scanFirst (c₀ :: pre') f (junk ++ ((c₀ :: pre') ++ s)) =
        scanFirst (c₀ :: pre') f ((c₀ :: pre') ++ s)
  | [], s, _ => by simp
  | a :: junk', s, h => by
    have hshape : (a :: junk') ++ ((c₀ :: pre') ++ s) = a :: (junk' ++ ((c₀ :: pre') ++ s)) := by
      simp
    rw [hshape, scanFirst]
    have hp : ((c₀ :: pre').isPrefixOf (a :: (junk' ++ ((c₀ :: pre') ++ s)))) = false := by
      rw [Bool.eq_false_iff]
      intro hq
      have hq' : (c₀ :: pre') <+: (a :: junk') ++ (c₀ :: pre') ++ s := by
        rw [List.append_assoc, hshape]
        exact List.isPrefixOf_iff_prefix.mp hq
      exact h (pref_to_short_inf (by simp) (by simp) hq')
    rw [if_neg (by simp only [hp]; exact Bool.false_ne_true)]
    exact scanFirst_skip c₀ pre' f junk' s (by apply not_inf_of_not_inf_cons (c := a); simpa using h)

theorem matchCapture_at (c₀ stop : Char) (pre' junk cap rest : List Char)
    (hj : ¬ ((c₀ :: pre') <:+: (junk ++ (c₀ :: pre').dropLast)))
    (hcap : cap ≠ []) (hstop : stop ∉ cap) :
    matchCapture (c₀ :: pre') stop (junk ++ ((c₀ :: pre') ++ (cap ++ stop :: rest))) = some cap := by
  rw [matchCapture, scanFirst_skip c₀ pre' _ junk _ hj]
  exact scanFirst_found c₀ pre' _ _ cap (capAt_found stop cap rest hcap hstop)

theorem matchLine_at (c₀ : Char) (pre' junk cap rest : List Char)
    (hj : ¬ ((c₀ :: pre') <:+: (junk ++ (c₀ :: pre').dropLast)))
    (hcap : cap ≠ []) (hcr : '\r' ∉ cap) (hlf : '\n' ∉ cap) :
    matchLine (c₀ :: pre') (junk ++ ((c₀ :: pre') ++ (cap ++ '\r' :: rest))) = some cap := by
  rw [matchLine, scanFirst_skip c₀ pre' _ junk _ hj]
  exact scanFirst_found c₀ pre' _ _ cap (lineAt_found cap rest hcap hcr hlf)

/-! ## Configurator lemmas -/

theorem jsMerge_nil_right (a : List (String × String)) : jsMerge a [] = a := by
  rw [jsMerge]
  simp [List.lookup]

theorem jsMerge_ne_nil (a b : List (String × String)) (h : a ≠ []) : jsMerge a b ≠ [] := by
  rw [jsMerge]
  intro hc
  rw [List.append_eq_nil] at hc
  exact h (List.map_eq_nil_iff.mp hc.1)

theorem modeConfigs_unknown (m : String)
    (h1 : m ≠ "fast") (h2 : m ≠ "advanced") (h3 : m ≠ "handwriting") :
    modeConfigs m = [] := by
  rw [modeConfigs, if_neg h1, if_neg h2, if_neg h3]

theorem languageConfigs_unknown (l : String) (h1 : l ≠ "lav") (h2 : l ≠ "rus") :
    languageConfigs l = [] := by
  rw [languageConfigs, if_neg h1, if_neg h2]

/-! ## Claim theorems: configurator -/

/-- C2: `buildParameters` applies the language layer after the mode layer:
for mode `"handwriting"` and language `"rus"` the resulting
`tessedit_char_whitelist` entry is the Russian whitelist from the language
table, which differs from the handwriting whitelist of the mode table. -/
theorem C2_whitelist_language_overrides_mode :
    List.lookup "tessedit_char_whitelist" (getWorkerConfig "handwriting" "rus") =
      List.lookup "tessedit_char_whitelist" (languageConfigs "rus") ∧
    List.lookup "tessedit_char_whitelist" (languageConfigs "rus") ≠
      List.lookup "tessedit_char_whitelist" (modeConfigs "handwriting") := by
  constructor
  · rfl
  · decide

/-- C3 (counterexample): the claim says
`postProcess("Hello\n\n\n\nWorld", "eng") = "Hello\n\nWorld"` with no other
character changed; the code also rewrites every lowercase l to I, producing
`"HeIIo\n\nWorId"`. -/
theorem C3_counterexample :
    postProcessText "Hello\n\n\n\nWorld" "eng" = "HeIIo\n\nWorId" ∧
    ("HeIIo\n\nWorId" : String) ≠ "Hello\n\nWorld" := by
  constructor
  · rfl
  · decide

/-- C3 (amended): `postProcess("Hello\n\n\n\nWorld", "eng")` collapses the
newline run to two and applies the unconditional confusion fixes (so the
lowercase l's become I), returning `"HeIIo\n\nWorId"`; no diacritic step is
applied. -/
theorem C3_amended_hello :
    postProcessText "Hello\n\n\n\nWorld" "eng" = "HeIIo\n\nWorId" := by
  rfl

/-- C6: when the content-type header lacks a `boundary=` parameter (or is
absent), `decode` fails with the `MalformedRequest` error (`"No boundary
found"`) and returns no partial `ParsedForm`. -/
theorem C6_no_boundary_error (ct : Option String) (body : String)
    (h : ∀ s : String, ct = some s → ¬ ("boundary=".data <:+: s.data)) :
    parseFormData ct body = Except.error "No boundary found" := by
  cases ct with
  | none => rfl
  | some s =>
    have hb : extractBoundary (some s) = none := by
      show ((splitOnL "boundary=".data s.data)[1]?).map String.mk = none
      rw [splitOnL_no_occ s.data (by decide) (h s rfl)]
      rfl
    simp only [parseFormData, hb]

/-- C6 (witness): a plain-text content-type header makes `decode` fail. -/
theorem C6_no_boundary_error_witness :
    parseFormData (some "text/plain") "ignored-body" = Except.error "No boundary found" :=
  C6_no_boundary_error (some "text/plain") "ignored-body"
    (fun s hs => by cases hs; decide)

/-- C8: `buildParameters` is deterministic and total: for every mode and
language it returns a non-empty parameter map; unknown modes and unknown
languages contribute no overrides, so with both unknown the base layer
stands. -/
theorem C8_total_config :
    (∀ m l : String, getWorkerConfig m l ≠ []) ∧
    (∀ m l : String, m ≠ "fast" → m ≠ "advanced" → m ≠ "handwriting" →
      getWorkerConfig m l = jsMerge baseConfig (languageConfigs l)) ∧
    (∀ m l : String, l ≠ "lav" → l ≠ "rus" →
      getWorkerConfig m l = jsMerge baseConfig (modeConfigs m)) ∧
    (∀ m l : String, m ≠ "fast" → m ≠ "advanced" → m ≠ "handwriting" →
      l ≠ "lav" → l ≠ "rus" → getWorkerConfig m l = baseConfig) := by
  refine ⟨?_, ?_, ?_, ?_⟩
  · intro m l
    exact jsMerge_ne_nil _ _ (jsMerge_ne_nil _ _ (by decide))
  · intro m l h1 h2 h3
    rw [getWorkerConfig, modeConfigs_unknown m h1 h2 h3, jsMerge_nil_right]
  · intro m l h1 h2
    rw [getWorkerConfig, languageConfigs_unknown l h1 h2, jsMerge_nil_right]
  · intro m l h1 h2 h3 h4 h5
    rw [getWorkerConfig, modeConfigs_unknown m h1 h2 h3, languageConfigs_unknown l h4 h5,
      jsMerge_nil_right, jsMerge_nil_right]

/-- C8 (witness): an unknown mode and language yield the non-empty base
configuration. -/
theorem C8_total_config_witness :
    getWorkerConfig "unknownmode" "xx" ≠ [] ∧
    getWorkerConfig "unknownmode" "xx" = baseConfig :=
  ⟨C8_total_config.1 "unknownmode" "xx",
   C8_total_config.2.2.2 "unknownmode" "xx" (by decide) (by decide) (by decide)
     (by decide) (by decide)⟩

/-- C9: `postProcess("brāļi", "lav")` strips the diacritics to `"brali"`,
and the diacritic table is applied exactly when the language is `"lav"`:
for `"lav"` the pipeline ends with `applyLatvianCorrections` before the
trim, for every other language that step is skipped. -/
theorem C9_latvian_postprocess :
    postProcessText "brāļi" "lav" = "brali" ∧
    (∀ t : String, postProcessText t "lav" =
      String.mk (jsTrimL (applyLatvianCorrections
        (String.mk (fixCl (fixRn ((collapseNewlines t.data).map fixLI))))).data)) ∧
    (∀ t l : String, l ≠ "lav" →
      postProcessText t l =
        String.mk (jsTrimL (fixCl (fixRn ((collapseNewlines t.data).map fixLI))))) := by
  refine ⟨rfl, ?_, ?_⟩
  · intro t
    simp [postProcessText]
  · intro t l h
    simp [postProcessText, h]

/-- C9 (witness): the Latvian scenario, and the skipped diacritic step for
English on a diacritic-bearing input. -/
theorem C9_latvian_postprocess_witness :
    postProcessText "brāļi" "lav" = "brali" ∧
    postProcessText "ā" "eng" =
      String.mk (jsTrimL (fixCl (fixRn ((collapseNewlines ("ā" : String).data).map fixLI)))) :=
  ⟨C9_latvian_postprocess.1, C9_latvian_postprocess.2.2 "ā" "eng" (by decide)⟩

/-! ## Post-processing lemmas -/

theorem inf_trans {a b c : List Char} (h1 : a <:+: b) (h2 : b <:+: c) : a <:+: c := by
  obtain ⟨u, v, huv⟩ := h1
  obtain ⟨x, y, hxy⟩ := h2
  exact ⟨x ++ u, v ++ y, by rw [← hxy, ← huv]; simp⟩

theorem mem_of_inf {c : Char} {x s : List Char} (hc : c ∈ x) (h : x <:+: s) : c ∈ s := by
  obtain ⟨u, v, huv⟩ := h
  rw [← huv]
  simp [hc]

theorem fixLI_ne_l (c : Char) : fixLI c ≠ 'l' := by
  rw [fixLI]
  split
  · decide
  · rename_i h
    exact fun hc => h (Or.inl hc)

theorem not_mem_map_fixLI (s : List Char) : 'l' ∉ s.map fixLI := by
  intro h
  rcases List.mem_map.mp h with ⟨a, _, ha⟩
  exact fixLI_ne_l a ha

theorem mem_fixRn : ∀ (s : List Char) (c : Char), c ∈ fixRn s → c = 'm' ∨ c ∈ s
  | [], c, h => by simp [fixRn] at h
  | [d], c, h => by
    simp only [fixRn] at h
    exact Or.inr h
  | a :: b :: rest, c, h => by
    simp only [fixRn] at h
    split at h
    · rcases List.mem_cons.mp h with h1 | h2
      · exact Or.inl h1
      · rcases mem_fixRn rest c h2 with h3 | h4
        · exact Or.inl h3
        · exact Or.inr (by simp [h4])
    · rcases List.mem_cons.mp h with h1 | h2
      · exact Or.inr (by simp [h1])
      · rcases mem_fixRn (b :: rest) c h2 with h3 | h4
        · exact Or.inl h3
        · exact Or.inr (by
            rcases List.mem_cons.mp h4 with h5 | h6
            · simp [h5]
            · simp [h6])

theorem mem_fixCl : ∀ (s : List Char) (c : Char), c ∈ fixCl s → c = 'd' ∨ c ∈ s
  | [], c, h => by simp [fixCl] at h
  | [d], c, h => by
    simp only [fixCl] at h
    exact Or.inr h
  | a :: b :: rest, c, h => by
    simp only [fixCl] at h
    split at h
    · rcases List.mem_cons.mp h with h1 | h2
      · exact Or.inl h1
      · rcases mem_fixCl rest c h2 with h3 | h4
        · exact Or.inl h3
        · exact Or.inr (by simp [h4])
    · rcases List.mem_cons.mp h with h1 | h2
      · exact Or.inr (by simp [h1])
      · rcases mem_fixCl (b :: rest) c h2 with h3 | h4
        · exact Or.inl h3
        · exact Or.inr (by
            rcases List.mem_cons.mp h4 with h5 | h6
            · simp [h5]
            · simp [h6])

theorem mem_jsTrimL {c : Char} {s : List Char} (h : c ∈ jsTrimL s) : c ∈ s := by
  rw [jsTrimL, List.mem_reverse] at h
  have h1 := (List.dropWhile_sublist isJsWs).subset h
  rw [List.mem_reverse] at h1
  exact (List.dropWhile_sublist isJsWs).subset h1

/-- C10: for every language other than `"lav"` the output of `postProcess`
contains no lowercase l (the confusion-fix step rewrites them all to I and no
later step reintroduces one); for `"lav"` the diacritic step can reintroduce
an l, e.g. from `"ļ"`. -/
theorem C10_no_lowercase_l :
    (∀ (t l : String), l ≠ "lav" → 'l' ∉ (postProcessText t l).data) ∧
    'l' ∈ (postProcessText "ļ" "lav").data := by
  constructor
  · intro t l hl hmem
    simp only [postProcessText, if_neg hl] at hmem
    have h2 := mem_jsTrimL hmem
    rcases mem_fixCl _ _ h2 with h3 | h4
    · exact absurd h3 (by decide)
    rcases mem_fixRn _ _ h4 with h5 | h6
    · exact absurd h5 (by decide)
    · exact not_mem_map_fixLI _ h6
  · decide

/-- C10 (witness): an English run of the pipeline on a text with lowercase
l's produces none. -/
theorem C10_no_lowercase_l_witness :
    ¬ ('l' ∈ (postProcessText "Hello world" "eng").data) :=
  C10_no_lowercase_l.1 "Hello world" "eng" (by decide)

theorem collapseNewlines_eq_self : ∀ (s : List Char),
    ¬ (['\n', '\n', '\n'] <:+: s) → collapseNewlines s = s
  | [], _ => rfl
  | c :: rest, h => by
    simp only [collapseNewlines]
    have hcond : ¬ (c = '\n' ∧ rest.take 2 = ['\n', '\n']) := by
      rintro ⟨hc, ht⟩
      apply h
      have hrest : rest = '\n' :: '\n' :: rest.drop 2 := by
        conv_lhs => rw [← List.take_append_drop 2 rest]
        rw [ht]
        rfl
      exact ⟨[], rest.drop 2, by rw [hc, hrest]; rfl⟩
    rw [if_neg hcond, collapseNewlines_eq_self rest (not_inf_of_not_inf_cons h)]

theorem fixRn_eq_self : ∀ (s : List Char), ¬ (['r', 'n'] <:+: s) → fixRn s = s
  | [], _ => rfl
  | [_], _ => rfl
  | a :: b :: rest, h => by
    simp only [fixRn]
    have hcond : ¬ (a = 'r' ∧ b = 'n') := by
      rintro ⟨h1, h2⟩
      exact h ⟨[], rest, by rw [h1, h2]; rfl⟩
    rw [if_neg hcond, fixRn_eq_self (b :: rest) (not_inf_of_not_inf_cons h)]

theorem fixCl_eq_self : ∀ (s : List Char), ¬ (['c', 'l'] <:+: s) → fixCl s = s
  | [], _ => rfl
  | [_], _ => rfl
  | a :: b :: rest, h => by
    simp only [fixCl]
    have hcond : ¬ (a = 'c' ∧ b = 'l') := by
      rintro ⟨h1, h2⟩
      exact h ⟨[], rest, by rw [h1, h2]; rfl⟩
    rw [if_neg hcond, fixCl_eq_self (b :: rest) (not_inf_of_not_inf_cons h)]

theorem map_fixLI_eq_self {s : List Char} (h1 : 'l' ∉ s) (h2 : 'I' ∉ s) :
    s.map fixLI = s := by
  have hfix : ∀ a ∈ s, fixLI a = id a := by
    intro a ha
    rw [fixLI, if_neg]
    · rfl
    · rintro (h | h)
      · exact h1 (h ▸ ha)
      · exact h2 (h ▸ ha)
  rw [List.map_congr_left hfix, List.map_id]

theorem dropWhile_idem (p : Char → Bool) (s : List Char) :
    (s.dropWhile p).dropWhile p = s.dropWhile p := by
  cases hd : s.dropWhile p with
  | nil => rfl
  | cons c t =>
    rw [List.dropWhile_cons]
    have hc : p c = false := by
      have := List.head?_dropWhile_not p s
      rw [hd] at this
      simpa using this
    simp [hc]

/-- The right-trim `(s.reverse.dropWhile p).reverse` as used by `jsTrimL`. -/
def dropEndWhile (p : Char → Bool) (s : List Char) : List Char :=
  (s.reverse.dropWhile p).reverse

theorem jsTrimL_as_ends (s : List Char) :
    jsTrimL s = dropEndWhile isJsWs (s.dropWhile isJsWs) := rfl

theorem dropEndWhile_decomp (p : Char → Bool) (s : List Char) :
    s = dropEndWhile p s ++ (s.reverse.takeWhile p).reverse := by
  rw [dropEndWhile, ← List.reverse_append]
  rw [List.takeWhile_append_dropWhile]
  rw [List.reverse_reverse]

theorem dropWhile_self_head_false (p : Char → Bool) {u : List Char} {c : Char} {t : List Char}
    (h : u.dropWhile p = u) (hu : u = c :: t) : p c = false := by
  subst hu
  rw [List.dropWhile_cons] at h
  by_cases hc : p c = true
  · rw [if_pos hc] at h
    have := (List.dropWhile_sublist p (l := t)).length_le
    have hlen := congrArg List.length h
    simp at hlen
    omega
  · simpa using hc

theorem dropWhile_dropEnd_self (p : Char → Bool) {u : List Char}
    (h : u.dropWhile p = u) : (dropEndWhile p u).dropWhile p = dropEndWhile p u := by
  cases hr : dropEndWhile p u with
  | nil => rfl
  | cons c t =>
    have hpref := dropEndWhile_decomp p u
    rw [hr] at hpref
    have hc : p c = false := dropWhile_self_head_false p h (by rw [hpref]; rfl)
    rw [List.dropWhile_cons, hc]
    simp

theorem jsTrimL_idem (s : List Char) : jsTrimL (jsTrimL s) = jsTrimL s := by
  rw [jsTrimL_as_ends s]
  have hu : (s.dropWhile isJsWs).dropWhile isJsWs = s.dropWhile isJsWs :=
    dropWhile_idem isJsWs s
  set u := s.dropWhile isJsWs with hu_def
  rw [jsTrimL_as_ends]
  rw [dropWhile_dropEnd_self isJsWs hu]
  rw [dropEndWhile, dropEndWhile, List.reverse_reverse]
  rw [dropWhile_idem]

theorem jsTrimL_inf (s : List Char) : jsTrimL s <:+: s := by
  rw [jsTrimL_as_ends s]
  refine ⟨s.takeWhile isJsWs, ((s.dropWhile isJsWs).reverse.takeWhile isJsWs).reverse, ?_⟩
  conv_rhs => rw [← List.takeWhile_append_dropWhile (p := isJsWs) (l := s)]
  rw [List.append_assoc]
  congr 1
  exact (dropEndWhile_decomp isJsWs (s.dropWhile isJsWs)).symm

theorem latvianFix_fixpoint (c : Char) : latvianFix (latvianFix c) = latvianFix c := by
  by_cases h1 : c = 'ā'
  · subst h1; decide
  by_cases h2 : c = 'č'
  · subst h2; decide
  by_cases h3 : c = 'ē'
  · subst h3; decide
  by_cases h4 : c = 'ģ'
  · subst h4; decide
  by_cases h5 : c = 'ī'
  · subst h5; decide
  by_cases h6 : c = 'ķ'
  · subst h6; decide
  by_cases h7 : c = 'ļ'
  · subst h7; decide
  by_cases h8 : c = 'ņ'
  · subst h8; decide
  by_cases h9 : c = 'š'
  · subst h9; decide
  by_cases h10 : c = 'ū'
  · subst h10; decide
  by_cases h11 : c = 'ž'
  · subst h11; decide
  have hc : latvianFix c = c := by
    rw [latvianFix, if_neg h1, if_neg h2, if_neg h3, if_neg h4, if_neg h5, if_neg h6,
      if_neg h7, if_neg h8, if_neg h9, if_neg h10, if_neg h11]
  rw [hc, hc]

/-- Text with no triple-newline run and none of the confusable substrings
(lowercase l, uppercase I, `rn`, `cl`) targeted by the fix-up steps. -/
def cleanText (s : List Char) : Prop :=
  ¬ (['\n', '\n', '\n'] <:+: s) ∧ 'l' ∉ s ∧ 'I' ∉ s ∧
  ¬ (['r', 'n'] <:+: s) ∧ ¬ (['c', 'l'] <:+: s)

instance cleanTextDecidable (s : List Char) : Decidable (cleanText s) := by
  unfold cleanText
  infer_instance

theorem cleanText_of_inf {x s : List Char} (hx : x <:+: s) (h : cleanText s) : cleanText x := by
  obtain ⟨h1, h2, h3, h4, h5⟩ := h
  exact ⟨fun hc => h1 (inf_trans hc hx), fun hc => h2 (mem_of_inf hc hx),
    fun hc => h3 (mem_of_inf hc hx), fun hc => h4 (inf_trans hc hx),
    fun hc => h5 (inf_trans hc hx)⟩

theorem pipeline_noop {s : List Char} (h : cleanText s) :
    fixCl (fixRn ((collapseNewlines s).map fixLI)) = s := by
  obtain ⟨h1, h2, h3, h4, h5⟩ := h
  rw [collapseNewlines_eq_self s h1, map_fixLI_eq_self h2 h3, fixRn_eq_self s h4,
    fixCl_eq_self s h5]

theorem postProcessText_lav (t : String) :
    postProcessText t "lav" =
      String.mk (jsTrimL ((fixCl (fixRn ((collapseNewlines t.data).map fixLI))).map latvianFix)) := by
  simp [postProcessText, applyLatvianCorrections]

theorem postProcessText_not_lav (t l : String) (h : l ≠ "lav") :
    postProcessText t l =
      String.mk (jsTrimL (fixCl (fixRn ((collapseNewlines t.data).map fixLI)))) := by
  simp [postProcessText, h]

/-- C4 (counterexample): `"ļ"` is clean (no triple newline, no l, no I, no
`rn`, no `cl`), yet for language `"lav"` the pipeline is not idempotent on
it: the first pass strips `ļ` to `l`, and the second pass rewrites that `l`
to `I`. -/
theorem C4_counterexample :
    cleanText ("ļ" : String).data ∧
    postProcessText "ļ" "lav" = "l" ∧
    postProcessText (postProcessText "ļ" "lav") "lav" = "I" ∧
    ("I" : String) ≠ "l" :=
  ⟨by decide, rfl, rfl, by decide⟩

/-- C4 (amended): `postProcess` is idempotent on clean text provided that,
for language `"lav"`, the diacritic-stripped text is also clean (the table
maps `ļ` to `l` and `ņ` to `n`, which can recreate confusable substrings
that the second pass would rewrite). -/
theorem C4_idem_clean (t l : String) (h : cleanText t.data)
    (hlav : l = "lav" → cleanText (t.data.map latvianFix)) :
    postProcessText (postProcessText t l) l = postProcessText t l := by
  by_cases hl : l = "lav"
  · subst hl
    have hclean2 := hlav rfl
    have hfirst : postProcessText t "lav" = String.mk (jsTrimL (t.data.map latvianFix)) := by
      rw [postProcessText_lav, pipeline_noop h]
    rw [hfirst]
    have hrinf : jsTrimL (t.data.map latvianFix) <:+: t.data.map latvianFix := jsTrimL_inf _
    have hcleanr : cleanText (String.mk (jsTrimL (t.data.map latvianFix))).data :=
      cleanText_of_inf hrinf hclean2
    rw [postProcessText_lav (String.mk (jsTrimL (t.data.map latvianFix)))]
    rw [pipeline_noop hcleanr]
    have hfix : ∀ a ∈ (String.mk (jsTrimL (t.data.map latvianFix))).data,
        latvianFix a = id a := by
      intro a ha
      have ha' : a ∈ t.data.map latvianFix := mem_of_inf ha hrinf
      rcases List.mem_map.mp ha' with ⟨b, _, hb⟩
      rw [← hb, latvianFix_fixpoint b]
      rfl
    rw [List.map_congr_left hfix, List.map_id]
    rw [show (String.mk (jsTrimL (t.data.map latvianFix))).data
      = jsTrimL (t.data.map latvianFix) from rfl]
    rw [jsTrimL_idem]
  · have hfirst : postProcessText t l = String.mk (jsTrimL t.data) := by
      rw [postProcessText_not_lav t l hl, pipeline_noop h]
    rw [hfirst]
    have hcleanr : cleanText (String.mk (jsTrimL t.data)).data :=
      cleanText_of_inf (jsTrimL_inf t.data) h
    rw [postProcessText_not_lav (String.mk (jsTrimL t.data)) l hl]
    rw [pipeline_noop hcleanr]
    rw [show (String.mk (jsTrimL t.data)).data = jsTrimL t.data from rfl]
    rw [jsTrimL_idem]

/-- C4 (witness): idempotence on a concrete clean input. -/
theorem C4_idem_clean_witness :
    postProcessText (postProcessText "abc" "eng") "eng" = postProcessText "abc" "eng" :=
  C4_idem_clean "abc" "eng" (by decide) (by decide)

/-! ## Decoder classification lemmas -/

/-- C7 (counterexample): the body's only meaningful segment has headers
without any `filename="..."` attribute — the literal occurs only inside the
part's value — yet the decoder classifies it as a file (and even extracts
the filename from the value), instead of storing a plain field. -/
theorem C7_counterexample :
    parseFormData (some "multipart/form-data; boundary=B")
        "--B\r\nContent-Disposition: form-data; name=\"a\"\r\n\r\nfilename=\"x\" is mentioned\r\n--B--\r\n"
      = Except.ok ⟨[], [("a", ⟨"x", "application/octet-stream", "filename=\"x\" is mentioned"⟩)]⟩ ∧
    containsL fnLit (((splitOnL crlf2
        "\r\nContent-Disposition: form-data; name=\"a\"\r\n\r\nfilename=\"x\" is mentioned\r\n".data)[0]?).getD ['?'])
      = false := by
  constructor
  · rfl
  · rfl

/-- C7 (amended): a meaningful segment (`Content-Disposition` present and
the `name="..."` regex matches) is classified as a file part if and only if
the whole segment — headers or value — contains the literal `filename="`;
for a file part the stored filename defaults to `"unknown"` when the
`filename="([^"]+)"` regex finds no match and the content type defaults to
`"application/octet-stream"` when the `Content-Type: ` regex finds no match;
otherwise the segment is stored as a plain field. -/
theorem C7_classification (form : ParsedForm) (part : List Char) (n : List Char)
    (hcd : containsL cdLit part = true)
    (hn : matchCapture nameLit '"' part = some n) :
    (containsL fnLit part = true →
      processPart form part =
        { form with
            files := objSet form.files (String.mk n)
              (FileAttachment.mk
                (match matchCapture fnLit '"' part with
                 | some f => String.mk f
                 | none => "unknown")
                (match matchLine ctLit part with
                 | some t => String.mk t
                 | none => "application/octet-stream")
                (String.mk (jsTrimL (((splitOnL crlf2 part)[1]?).getD [])))) }) ∧
    (containsL fnLit part = false →
      processPart form part =
        { form with
            fields := objSet form.fields (String.mk n)
              (((splitOnL crlf2 part)[1]?).map (fun v => String.mk (jsTrimL v))) }) := by
  constructor
  · intro hf
    simp only [processPart, hcd, hn, hf, if_true]
  · intro hf
    simp only [processPart, hcd, hn, hf, if_true, Bool.false_eq_true, if_false]

/-- C7 (witness): a segment whose headers carry no filename is stored as a
plain field with its trimmed value. -/
theorem C7_classification_witness :
    processPart ⟨[], []⟩
        "\r\nContent-Disposition: form-data; name=\"a\"\r\n\r\nhello\r\n".data
      = ⟨[("a", some "hello")], []⟩ := by
  have h := (C7_classification ⟨[], []⟩
      "\r\nContent-Disposition: form-data; name=\"a\"\r\n\r\nhello\r\n".data
      "a".data (by rfl) (by rfl)).2 (by rfl)
  rw [h]
  rfl

/-! ## Decoder key-disjointness lemmas -/

/-- The name extracted from a segment, when the segment is meaningful
(`Content-Disposition` present and the `name="..."` regex matches). -/
def segName (part : List Char) : Option String :=
  if containsL cdLit part then (matchCapture nameLit '"' part).map String.mk else none

/-- The name of a segment stored as a field (no `filename="` literal). -/
def segNameField (part : List Char) : Option String :=
  if containsL fnLit part then none else segName part

/-- The name of a segment stored as a file (`filename="` literal present). -/
def segNameFile (part : List Char) : Option String :=
  if containsL fnLit part then segName part else none

theorem objSet_keys {α : Type} (m : List (String × α)) (key : String) (v : α) (k : String)
    (h : k ∈ (objSet m key v).map Prod.fst) : k ∈ m.map Prod.fst ∨ k = key := by
  rw [objSet] at h
  split at h
  · rcases List.mem_map.mp h with ⟨p, hp, hpk⟩
    rcases List.mem_map.mp hp with ⟨q, hq, hqp⟩
    subst hqp
    by_cases hqkey : (q.1 == key) = true
    · right
      rw [if_pos hqkey] at hpk
      exact hpk.symm
    · left
      rw [if_neg hqkey] at hpk
      exact List.mem_map.mpr ⟨q, hq, hpk⟩
  · rw [List.map_append] at h
    rcases List.mem_append.mp h with h1 | h2
    · exact Or.inl h1
    · right
      simpa using h2

theorem segName_of_field {part : List Char} {k : String} (h : segNameField part = some k) :
    segName part = some k ∧ containsL fnLit part = false := by
  rw [segNameField] at h
  split at h
  · exact absurd h (by simp)
  · rename_i hfn
    exact ⟨h, by simpa using hfn⟩

theorem segName_of_file {part : List Char} {k : String} (h : segNameFile part = some k) :
    segName part = some k ∧ containsL fnLit part = true := by
  rw [segNameFile] at h
  split at h
  · rename_i hfn
    exact ⟨h, hfn⟩
  · exact absurd h (by simp)

theorem processPart_fields_keys (form : ParsedForm) (part : List Char) (k : String)
    (h : k ∈ (processPart form part).fields.map Prod.fst) :
    k ∈ form.fields.map Prod.fst ∨ segNameField part = some k := by
  simp only [processPart] at h
  split at h
  · rename_i hcd
    split at h
    · exact Or.inl h
    · rename_i n hn
      split at h
      · exact Or.inl h
      · rename_i hfn
        rcases objSet_keys _ _ _ _ h with h1 | h2
        · exact Or.inl h1
        · right
          rw [segNameField, if_neg hfn, segName, if_pos hcd, hn, h2]
          rfl
  · exact Or.inl h

theorem processPart_files_keys (form : ParsedForm) (part : List Char) (k : String)
    (h : k ∈ (processPart form part).files.map Prod.fst) :
    k ∈ form.files.map Prod.fst ∨ segNameFile part = some k := by
  simp only [processPart] at h
  split at h
  · rename_i hcd
    split at h
    · exact Or.inl h
    · rename_i n hn
      split at h
      · rename_i hfn
        rcases objSet_keys _ _ _ _ h with h1 | h2
        · exact Or.inl h1
        · right
          rw [segNameFile, if_pos hfn, segName, if_pos hcd, hn, h2]
          rfl
      · exact Or.inl h
  · exact Or.inl h

theorem foldl_fields_keys : ∀ (segs : List (List Char)) (form : ParsedForm) (k : String),
    k ∈ (segs.foldl processPart form).fields.map Prod.fst →
    k ∈ form.fields.map Prod.fst ∨ k ∈ segs.filterMap segNameField
  | [], form, k, h => Or.inl h
  | s :: rest, form, k, h => by
    rw [List.foldl_cons] at h
    rcases foldl_fields_keys rest (processPart form s) k h with h1 | h2
    · rcases processPart_fields_keys form s k h1 with h3 | h4
      · exact Or.inl h3
      · right
        rw [List.filterMap_cons, h4]
        simp
    · right
      rw [List.filterMap_cons]
      cases hs : segNameField s
      · simpa using h2
      · simp [h2]

theorem foldl_files_keys : ∀ (segs : List (List Char)) (form : ParsedForm) (k : String),
    k ∈ (segs.foldl processPart form).files.map Prod.fst →
    k ∈ form.files.map Prod.fst ∨ k ∈ segs.filterMap segNameFile
  | [], form, k, h => Or.inl h
  | s :: rest, form, k, h => by
    rw [List.foldl_cons] at h
    rcases foldl_files_keys rest (processPart form s) k h with h1 | h2
    · rcases processPart_files_keys form s k h1 with h3 | h4
      · exact Or.inl h3
      · right
        rw [List.filterMap_cons, h4]
        simp
    · right
      rw [List.filterMap_cons]
      cases hs : segNameFile s
      · simpa using h2
      · simp [h2]

theorem mem_names_of_field {segs : List (List Char)} {k : String}
    (h : k ∈ segs.filterMap segNameField) : k ∈ segs.filterMap segName := by
  rcases List.mem_filterMap.mp h with ⟨p, hp, hF⟩
  exact List.mem_filterMap.mpr ⟨p, hp, (segName_of_field hF).1⟩

theorem mem_names_of_file {segs : List (List Char)} {k : String}
    (h : k ∈ segs.filterMap segNameFile) : k ∈ segs.filterMap segName := by
  rcases List.mem_filterMap.mp h with ⟨p, hp, hF⟩
  exact List.mem_filterMap.mpr ⟨p, hp, (segName_of_file hF).1⟩

theorem nodup_names_tail {s : List Char} {rest : List (List Char)}
    (h : ((s :: rest).filterMap segName).Nodup) : (rest.filterMap segName).Nodup := by
  rw [List.filterMap_cons] at h
  cases hs : segName s
  · rwa [hs] at h
  · rw [hs] at h
    exact h.of_cons

theorem filterMap_names_disj : ∀ (segs : List (List Char)) (k : String),
    (segs.filterMap segName).Nodup →
    k ∈ segs.filterMap segNameField → k ∈ segs.filterMap segNameFile → False
  | [], k, _, hf, _ => by simp at hf
  | s :: rest, k, hnd, hf, hg => by
    rw [List.filterMap_cons] at hf hg
    cases h1 : segNameField s with
    | some k1 =>
      have hs1 := segName_of_field h1
      have hg' : k ∈ rest.filterMap segNameFile := by
        have h2 : segNameFile s = none := by
          rw [segNameFile, hs1.2]
          simp
        rwa [h2] at hg
      rw [h1] at hf
      rcases List.mem_cons.mp hf with hk | hk
      · subst hk
        have hknames : k ∈ rest.filterMap segName := mem_names_of_file hg'
        rw [List.filterMap_cons, hs1.1] at hnd
        exact (List.nodup_cons.mp hnd).1 hknames
      · exact filterMap_names_disj rest k (nodup_names_tail hnd) hk hg'
    | none =>
      rw [h1] at hf
      cases h2 : segNameFile s with
      | some k2 =>
        have hs2 := segName_of_file h2
        rw [h2] at hg
        rcases List.mem_cons.mp hg with hk | hk
        · subst hk
          have hknames : k ∈ rest.filterMap segName := mem_names_of_field hf
          rw [List.filterMap_cons, hs2.1] at hnd
          exact (List.nodup_cons.mp hnd).1 hknames
        · exact filterMap_names_disj rest k (nodup_names_tail hnd) hf hk
      | none =>
        rw [h2] at hg
        exact filterMap_names_disj rest k (nodup_names_tail hnd) hf hg

/-- C5 (counterexample): two meaningful parts with the same name, one a
field and one a file, put the key `"a"` into both maps of the same parse,
so the key sets of `fields` and `files` are not disjoint. -/
theorem C5_counterexample :
    parseFormData (some "multipart/form-data; boundary=B")
        "--B\r\nContent-Disposition: form-data; name=\"a\"\r\n\r\nv\r\n--B\r\nContent-Disposition: form-data; name=\"a\"; filename=\"f.png\"\r\nContent-Type: image/png\r\n\r\nDATA\r\n--B--\r\n"
      = Except.ok ⟨[("a", some "v")], [("a", ⟨"f.png", "image/png", "DATA"⟩)]⟩ ∧
    "a" ∈ ([("a", some "v")] : List (String × Option String)).map Prod.fst ∧
    "a" ∈ ([("a", (⟨"f.png", "image/png", "DATA"⟩ : FileAttachment))]).map Prod.fst := by
  refine ⟨rfl, by simp, by simp⟩

/-- C5 (amended): within a single parse, the key sets of `fields` and
`files` are disjoint provided that the meaningful segments of the body have
pairwise distinct extracted names (each segment is classified as exactly one
of field or file; duplicate names across differently-classified segments are
what break disjointness). -/
theorem C5_disjoint_keys (ct : Option String) (body : String) (boundary : String)
    (form : ParsedForm)
    (hb : extractBoundary ct = some boundary) (hb0 : boundary ≠ "")
    (hok : parseFormData ct body = Except.ok form)
    (hnd : ((splitOnL ("--" ++ boundary).data body.data).filterMap segName).Nodup) :
    ∀ k : String, ¬ (k ∈ form.fields.map Prod.fst ∧ k ∈ form.files.map Prod.fst) := by
  intro k hk
  simp only [parseFormData, hb, if_neg hb0, Except.ok.injEq] at hok
  subst hok
  rcases foldl_fields_keys _ _ _ hk.1 with h1 | h1
  · simp at h1
  rcases foldl_files_keys _ _ _ hk.2 with h2 | h2
  · simp at h2
  exact filterMap_names_disj _ k hnd h1 h2

/-- C5 (witness): the disjointness instance for a concrete two-part body
with distinct names. -/
theorem C5_disjoint_keys_witness :
    ¬ ("language" ∈ (ParsedForm.mk [("language", some "lav")]
          [("image", ⟨"scan.png", "image/png", "DATA"⟩)]).fields.map Prod.fst ∧
       "language" ∈ (ParsedForm.mk [("language", some "lav")]
          [("image", ⟨"scan.png", "image/png", "DATA"⟩)]).files.map Prod.fst) :=
  C5_disjoint_keys (some "multipart/form-data; boundary=XYZ")
    "--XYZ\r\nContent-Disposition: form-data; name=\"language\"\r\n\r\nlav\r\n--XYZ\r\nContent-Disposition: form-data; name=\"image\"; filename=\"scan.png\"\r\nContent-Type: image/png\r\n\r\nDATA\r\n--XYZ--\r\n"
    "XYZ"
    (ParsedForm.mk [("language", some "lav")] [("image", ⟨"scan.png", "image/png", "DATA"⟩)])
    (by rfl) (by decide) (by rfl) (by decide) "language"

/-! ## Round-trip of well-formed multipart bodies -/

/-- Abstract description of one named part of a well-formed multipart body:
either a plain field or a file attachment. -/
inductive PartSpec where
  | fieldP (name value : String)
  | fileP (name filename contentType value : String)
deriving DecidableEq, Repr

/-- The name of a part. -/
def PartSpec.pname : PartSpec → String
  | .fieldP n _ => n
  | .fileP n _ _ _ => n

/-- The common prefix of every segment produced by splitting a well-formed
body on `--<boundary>`: the CRLF that followed the delimiter and the
`Content-Disposition` header up to the name attribute. -/
def hdr0 : List Char := "\r\nContent-Disposition: form-data; ".data

/-- The segment a well-formed part contributes between two delimiters. -/
def mkSeg : PartSpec → List Char
  | .fieldP n v =>
      hdr0 ++ nameLit ++ n.data ++ "\"".data ++ crlf2 ++ v.data ++ "\r\n".data
  | .fileP n fn ct v =>
      hdr0 ++ nameLit ++ n.data ++ "\"; ".data ++ fnLit ++ fn.data ++ "\"\r\n".data ++
      ctLit ++ ct.data ++ crlf2 ++ v.data ++ "\r\n".data

/-- A well-formed multipart body:
`--B<seg₁>--B<seg₂>...--B<segₙ>--B--\r\n`. -/
def mkBody (boundary : String) (parts : List PartSpec) : String :=
  String.mk (("--" ++ boundary).data ++
    parts.foldr (fun p acc => mkSeg p ++ ("--" ++ boundary).data ++ acc) "--\r\n".data)

/-- The `fields` entry the decoder stores for a part, if it is a field. -/
def fieldEntry : PartSpec → Option (String × Option String)
  | .fieldP n v => some (n, some (String.mk (jsTrimL (v.data ++ "\r\n".data))))
  | _ => none

/-- The `files` entry the decoder stores for a part, if it is a file. -/
def fileEntry : PartSpec → Option (String × FileAttachment)
  | .fileP n fn ct v =>
      some (n, ⟨fn, ct, String.mk (jsTrimL (v.data ++ "\r\n".data))⟩)
  | _ => none

/-- Boundary-independent well-formedness of one part: the name (and for a
file the filename and content type) is nonempty and free of the delimiting
characters, the value contains no blank-line separator `\r\n\r\n` (the
restriction the decoder's `split('\r\n\r\n')[1]` forces), the header region
creates no early separator or header-literal occurrence, and a field part
contains no `filename="` literal anywhere. -/
def SegOk : PartSpec → Prop
  | .fieldP n v =>
      n.data ≠ [] ∧ '"' ∉ n.data ∧
      ¬ (crlf2 <:+: ((hdr0 ++ nameLit ++ n.data ++ "\"".data) ++ "\r\n\r".data)) ∧
      ¬ (crlf2 <:+: (v.data ++ "\r\n".data)) ∧
      ¬ (fnLit <:+: mkSeg (.fieldP n v))
  | .fileP n fn ct v =>
      n.data ≠ [] ∧ '"' ∉ n.data ∧
      fn.data ≠ [] ∧ '"' ∉ fn.data ∧
      ct.data ≠ [] ∧ '\r' ∉ ct.data ∧ '\n' ∉ ct.data ∧
      ¬ (fnLit <:+: ((hdr0 ++ nameLit ++ n.data ++ "\"; ".data) ++ fnLit.dropLast)) ∧
      ¬ (ctLit <:+: ((hdr0 ++ nameLit ++ n.data ++ "\"; ".data ++ fnLit ++ fn.data ++
            "\"\r\n".data) ++ ctLit.dropLast)) ∧
      ¬ (crlf2 <:+: ((hdr0 ++ nameLit ++ n.data ++ "\"; ".data ++ fnLit ++ fn.data ++
            "\"\r\n".data ++ ctLit ++ ct.data) ++ "\r\n\r".data)) ∧
      ¬ (crlf2 <:+: (v.data ++ "\r\n".data))

instance segOkDecidable (p : PartSpec) : Decidable (SegOk p) := by
  cases p <;> (dsimp only [SegOk]; infer_instance)

/-- Well-formedness of a part relative to the boundary: additionally the
delimiter `--<boundary>` has no occurrence inside the segment (nor one that
bleeds into the following delimiter). -/
def ValidPart (boundary : String) (p : PartSpec) : Prop :=
  SegOk p ∧
  ¬ (("--" ++ boundary).data <:+: (mkSeg p ++ ("--" ++ boundary).data.dropLast))

instance validPartDecidable (boundary : String) (p : PartSpec) :
    Decidable (ValidPart boundary p) := by
  unfold ValidPart
  infer_instance

theorem count_entries : ∀ (parts : List PartSpec),
    (parts.filterMap fieldEntry).length + (parts.filterMap fileEntry).length = parts.length
  | [] => rfl
  | p :: rest => by
    have ih := count_entries rest
    cases p <;> simp [List.filterMap_cons, fieldEntry, fileEntry] <;> omega

/-- C1 (counterexample): a valid single-field body whose value contains a
second blank-line separator.  Everything after the first separator, up to
the end of the segment and trimmed, is `"X\r\n\r\nY"`, but the decoder
stores only `"X"` — `split('\r\n\r\n')[1]` stops at the second separator. -/
theorem C1_counterexample :
    parseFormData (some "multipart/form-data; boundary=B")
        "--B\r\nContent-Disposition: form-data; name=\"a\"\r\n\r\nX\r\n\r\nY\r\n--B--\r\n"
      = Except.ok ⟨[("a", some "X")], []⟩ ∧
    jsTrimS "X\r\n\r\nY\r\n" = "X\r\n\r\nY" ∧
    ("X" : String) ≠ "X\r\n\r\nY" := by
  refine ⟨rfl, rfl, by decide⟩

theorem processPart_field_seg (form : ParsedForm) (n v : String)
    (h : SegOk (PartSpec.fieldP n v)) :
    processPart form (mkSeg (PartSpec.fieldP n v)) =
      { form with
          fields := objSet form.fields n
            (some (String.mk (jsTrimL (v.data ++ "\r\n".data)))) } := by
  obtain ⟨hn1, hn2, hsp, hv, hfn⟩ := h
  have hcd : containsL cdLit (mkSeg (PartSpec.fieldP n v)) = true := by
    apply containsL_eq_true
    refine ⟨"\r\n".data, ": form-data; ".data ++ nameLit ++ n.data ++ "\"".data ++ crlf2 ++
      v.data ++ "\r\n".data, ?_⟩
    simp only [mkSeg, hdr0, cdLit, nameLit, crlf2, List.append_assoc]
    rfl
  have hname : matchCapture nameLit '"' (mkSeg (PartSpec.fieldP n v)) = some n.data := by
    have hshape : mkSeg (PartSpec.fieldP n v) =
        hdr0 ++ (('n' :: "ame=\"".data) ++ (n.data ++ '"' :: (crlf2 ++ v.data ++ "\r\n".data))) := by
      simp only [mkSeg, List.append_assoc]
      rfl
    rw [show nameLit = 'n' :: "ame=\"".data from rfl, hshape]
    exact matchCapture_at 'n' '"' "ame=\"".data hdr0 n.data (crlf2 ++ v.data ++ "\r\n".data)
      (by decide) hn1 hn2
  have hsplit : splitOnL crlf2 (mkSeg (PartSpec.fieldP n v)) =
      [hdr0 ++ nameLit ++ n.data ++ "\"".data, v.data ++ "\r\n".data] := by
    have hshape : mkSeg (PartSpec.fieldP n v) =
        (hdr0 ++ nameLit ++ n.data ++ "\"".data) ++ crlf2 ++ (v.data ++ "\r\n".data) := by
      simp only [mkSeg, List.append_assoc]
    rw [hshape]
    rw [splitOnL_junction _ _ (by decide) (by
      rw [show crlf2.dropLast = "\r\n\r".data from rfl]
      exact hsp)]
    rw [splitOnL_no_occ _ (by decide) hv]
  have hfnF : containsL fnLit (mkSeg (PartSpec.fieldP n v)) = false := containsL_eq_false hfn
  simp only [processPart, hcd, hname, hfnF, hsplit, if_true, Bool.false_eq_true, if_false,
    List.getElem?_cons_succ, List.getElem?_cons_zero, Option.map_some]
  rfl

theorem processPart_file_seg (form : ParsedForm) (n fn ct v : String)
    (h : SegOk (PartSpec.fileP n fn ct v)) :
    processPart form (mkSeg (PartSpec.fileP n fn ct v)) =
      { form with
          files := objSet form.files n
            ⟨fn, ct, String.mk (jsTrimL (v.data ++ "\r\n".data))⟩ } := by
  obtain ⟨hn1, hn2, hf1, hf2, hc1, hc2, hc3, hjf, hjc, hsp, hv⟩ := h
  have hcd : containsL cdLit (mkSeg (PartSpec.fileP n fn ct v)) = true := by
    apply containsL_eq_true
    refine ⟨"\r\n".data, ": form-data; ".data ++ nameLit ++ n.data ++ "\"; ".data ++ fnLit ++
      fn.data ++ "\"\r\n".data ++ ctLit ++ ct.data ++ crlf2 ++ v.data ++ "\r\n".data, ?_⟩
    simp only [mkSeg, hdr0, cdLit, nameLit, fnLit, ctLit, crlf2, List.append_assoc]
    rfl
  have hname : matchCapture nameLit '"' (mkSeg (PartSpec.fileP n fn ct v)) = some n.data := by
    have hshape : mkSeg (PartSpec.fileP n fn ct v) =
        hdr0 ++ (('n' :: "ame=\"".data) ++ (n.data ++ '"' :: ("; ".data ++ fnLit ++ fn.data ++
          "\"\r\n".data ++ ctLit ++ ct.data ++ crlf2 ++ v.data ++ "\r\n".data))) := by
      simp only [mkSeg, List.append_assoc]
      rfl
    rw [show nameLit = 'n' :: "ame=\"".data from rfl, hshape]
    exact matchCapture_at 'n' '"' "ame=\"".data hdr0 n.data _ (by decide) hn1 hn2
  have hfnT : containsL fnLit (mkSeg (PartSpec.fileP n fn ct v)) = true := by
    apply containsL_eq_true
    refine ⟨hdr0 ++ nameLit ++ n.data ++ "\"; ".data, fn.data ++ "\"\r\n".data ++ ctLit ++
      ct.data ++ crlf2 ++ v.data ++ "\r\n".data, ?_⟩
    simp only [mkSeg, List.append_assoc]
  have hfname : matchCapture fnLit '"' (mkSeg (PartSpec.fileP n fn ct v)) = some fn.data := by
    have hshape : mkSeg (PartSpec.fileP n fn ct v) =
        (hdr0 ++ nameLit ++ n.data ++ "\"; ".data) ++ (('f' :: "ilename=\"".data) ++
          (fn.data ++ '"' :: ("\r\n".data ++ ctLit ++ ct.data ++ crlf2 ++ v.data ++
            "\r\n".data))) := by
      simp only [mkSeg, List.append_assoc]
      rfl
    rw [show fnLit = 'f' :: "ilename=\"".data from rfl, hshape]
    apply matchCapture_at 'f' '"' "ilename=\"".data _ fn.data _ ?_ hf1 hf2
    rw [show ('f' :: "ilename=\"".data).dropLast = fnLit.dropLast from rfl]
    exact hjf
  have hct : matchLine ctLit (mkSeg (PartSpec.fileP n fn ct v)) = some ct.data := by
    have hshape : mkSeg (PartSpec.fileP n fn ct v) =
        (hdr0 ++ nameLit ++ n.data ++ "\"; ".data ++ fnLit ++ fn.data ++ "\"\r\n".data) ++
          (('C' :: "ontent-Type: ".data) ++
            (ct.data ++ '\r' :: ("\n\r\n".data ++ v.data ++ "\r\n".data))) := by
      simp only [mkSeg, List.append_assoc]
      rfl
    rw [show ctLit = 'C' :: "ontent-Type: ".data from rfl, hshape]
    apply matchLine_at 'C' "ontent-Type: ".data _ ct.data _ ?_ hc1 hc2 hc3
    rw [show ('C' :: "ontent-Type: ".data).dropLast = ctLit.dropLast from rfl]
    exact hjc
  have hsplit : splitOnL crlf2 (mkSeg (PartSpec.fileP n fn ct v)) =
      [hdr0 ++ nameLit ++ n.data ++ "\"; ".data ++ fnLit ++ fn.data ++ "\"\r\n".data ++
        ctLit ++ ct.data, v.data ++ "\r\n".data] := by
    have hshape : mkSeg (PartSpec.fileP n fn ct v) =
        (hdr0 ++ nameLit ++ n.data ++ "\"; ".data ++ fnLit ++ fn.data ++ "\"\r\n".data ++
          ctLit ++ ct.data) ++ crlf2 ++ (v.data ++ "\r\n".data) := by
      simp only [mkSeg, List.append_assoc]
    rw [hshape]
    rw [splitOnL_junction _ _ (by decide) (by
      rw [show crlf2.dropLast = "\r\n\r".data from rfl]
      exact hsp)]
    rw [splitOnL_no_occ _ (by decide) hv]
  simp only [processPart, hcd, hname, hfnT, hfname, hct, hsplit, if_true,
    List.getElem?_cons_succ, List.getElem?_cons_zero]
  rfl

theorem objSet_append {α : Type} (m : List (String × α)) (key : String) (v : α)
    (h : ¬ key ∈ m.map Prod.fst) : objSet m key v = m ++ [(key, v)] := by
  rw [objSet, if_neg]
  intro hc
  rcases List.any_eq_true.mp hc with ⟨p, hp, hpk⟩
  exact h (List.mem_map.mpr ⟨p, hp, by rwa [beq_iff_eq] at hpk⟩)

theorem processPart_skip (form : ParsedForm) (part : List Char)
    (h : containsL cdLit part = false) : processPart form part = form := by
  simp only [processPart, h, Bool.false_eq_true, if_false]

theorem foldl_mkSegs :
    ∀ (parts : List PartSpec) (F : List (String × Option String))
      (G : List (String × FileAttachment)),
      (∀ p ∈ parts, SegOk p) →
      (∀ p ∈ parts, ¬ p.pname ∈ F.map Prod.fst ∧ ¬ p.pname ∈ G.map Prod.fst) →
      (parts.map PartSpec.pname).Nodup →
      (parts.map mkSeg).foldl processPart ⟨F, G⟩ =
        ⟨F ++ parts.filterMap fieldEntry, G ++ parts.filterMap fileEntry⟩
  | [], F, G, _, _, _ => by simp
  | p :: rest, F, G, hok, hfresh, hnd => by
    rw [List.map_cons, List.foldl_cons]
    rw [List.map_cons, List.nodup_cons] at hnd
    cases p with
    | fieldP n v =>
      rw [processPart_field_seg ⟨F, G⟩ n v (hok _ (by simp))]
      dsimp only
      have hnF : ¬ n ∈ F.map Prod.fst := (hfresh (PartSpec.fieldP n v) (by simp)).1
      rw [objSet_append F n _ hnF]
      have hfresh' : ∀ q ∈ rest,
          ¬ q.pname ∈ ((F ++ [(n, some (String.mk (jsTrimL (v.data ++ "\r\n".data))))]).map
            Prod.fst) ∧
          ¬ q.pname ∈ G.map Prod.fst := by
        intro q hq
        refine ⟨?_, (hfresh q (by simp [hq])).2⟩
        rw [List.map_append]
        intro hmem
        rcases List.mem_append.mp hmem with h1 | h1
        · exact (hfresh q (by simp [hq])).1 h1
        · have h2 : q.pname = n := by simpa using h1
          exact hnd.1 (List.mem_map.mpr ⟨q, hq, h2⟩)
      rw [foldl_mkSegs rest _ G (fun q hq => hok q (by simp [hq])) hfresh' hnd.2]
      rw [List.filterMap_cons, List.filterMap_cons]
      simp [fieldEntry, fileEntry, List.append_assoc]
    | fileP n fn ctv v =>
      rw [processPart_file_seg ⟨F, G⟩ n fn ctv v (hok _ (by simp))]
      dsimp only
      have hnG : ¬ n ∈ G.map Prod.fst := (hfresh (PartSpec.fileP n fn ctv v) (by simp)).2
      rw [objSet_append G n _ hnG]
      have hfresh' : ∀ q ∈ rest,
          ¬ q.pname ∈ F.map Prod.fst ∧
          ¬ q.pname ∈ ((G ++ [(n, (⟨fn, ctv, String.mk (jsTrimL (v.data ++ "\r\n".data))⟩ :
            FileAttachment))]).map Prod.fst) := by
        intro q hq
        refine ⟨(hfresh q (by simp [hq])).1, ?_⟩
        rw [List.map_append]
        intro hmem
        rcases List.mem_append.mp hmem with h1 | h1
        · exact (hfresh q (by simp [hq])).2 h1
        · have h2 : q.pname = n := by simpa using h1
          exact hnd.1 (List.mem_map.mpr ⟨q, hq, h2⟩)
      rw [foldl_mkSegs rest F _ (fun q hq => hok q (by simp [hq])) hfresh' hnd.2]
      rw [List.filterMap_cons, List.filterMap_cons]
      simp [fieldEntry, fileEntry, List.append_assoc]

theorem splitOnL_foldr_body (sep : List Char) (hsep : sep ≠ []) :
    ∀ (parts : List PartSpec),
      (∀ p ∈ parts, ¬ (sep <:+: (mkSeg p ++ sep.dropLast))) →
      ¬ (sep <:+: "--\r\n".data) →
      splitOnL sep (parts.foldr (fun p acc => mkSeg p ++ sep ++ acc) "--\r\n".data) =
        parts.map mkSeg ++ ["--\r\n".data]
  | [], _, htail => by
    rw [List.foldr_nil, splitOnL_no_occ _ hsep htail]
    rfl
  | p :: rest, hparts, htail => by
    rw [List.foldr_cons]
    rw [splitOnL_junction _ _ hsep (hparts p (by simp))]
    rw [splitOnL_foldr_body sep hsep rest (fun q hq => hparts q (by simp [hq])) htail]
    rfl

theorem splitOnL_mkBody (boundary : String) (parts : List PartSpec)
    (hparts : ∀ p ∈ parts,
      ¬ (("--" ++ boundary).data <:+: (mkSeg p ++ ("--" ++ boundary).data.dropLast)))
    (htail : ¬ (("--" ++ boundary).data <:+: "--\r\n".data)) :
    splitOnL ("--" ++ boundary).data (mkBody boundary parts).data =
      [] :: (parts.map mkSeg ++ ["--\r\n".data]) := by
  have hsep : ("--" ++ boundary).data ≠ [] := by
    rw [String.data_append]
    simp
  have hown : ¬ (("--" ++ boundary).data <:+:
      (([] : List Char) ++ ("--" ++ boundary).data.dropLast)) := by
    intro hc
    have hlen := hc.length_le
    rw [List.nil_append, List.length_dropLast] at hlen
    have hne : ("--" ++ boundary).data.length ≠ 0 := by
      intro h0
      exact hsep (List.length_eq_zero.mp h0)
    omega
  have hbody : (mkBody boundary parts).data =
      ([] : List Char) ++ ("--" ++ boundary).data ++
        (parts.foldr (fun p acc => mkSeg p ++ ("--" ++ boundary).data ++ acc)
          "--\r\n".data) := rfl
  rw [hbody, splitOnL_junction _ _ hsep hown,
    splitOnL_foldr_body _ hsep parts hparts htail]

/-- C1 (amended): for every well-formed multipart body whose parts have
pairwise distinct names and whose values contain no embedded `\r\n\r\n`
(the restriction forced by the decoder's `split('\r\n\r\n')[1]`, which stops
at a second blank-line separator), `decode` succeeds and stores for every
part exactly the bytes between its header separator and its closing
delimiter, trimmed of the boundary-split artifacts, and the combined
field+file count equals the number of parts. -/
theorem C1_parse_roundtrip (ct : Option String) (boundary : String) (parts : List PartSpec)
    (hb : extractBoundary ct = some boundary) (hb0 : boundary ≠ "")
    (htail : ¬ (("--" ++ boundary).data <:+: "--\r\n".data))
    (hparts : ∀ p ∈ parts, ValidPart boundary p)
    (hnames : (parts.map PartSpec.pname).Nodup) :
    parseFormData ct (mkBody boundary parts) =
      Except.ok ⟨parts.filterMap fieldEntry, parts.filterMap fileEntry⟩ ∧
    (parts.filterMap fieldEntry).length + (parts.filterMap fileEntry).length
      = parts.length := by
  constructor
  · simp only [parseFormData, hb, if_neg hb0]
    rw [splitOnL_mkBody boundary parts (fun p hp => (hparts p hp).2) htail]
    rw [List.foldl_cons]
    rw [show processPart ⟨[], []⟩ [] = (⟨[], []⟩ : ParsedForm) from rfl]
    rw [List.foldl_append]
    rw [foldl_mkSegs parts [] [] (fun p hp => (hparts p hp).1)
      (fun p _ => ⟨by simp, by simp⟩) hnames]
    rw [List.foldl_cons, List.foldl_nil]
    rw [processPart_skip _ _ (by decide)]
    simp
  · exact count_entries parts

/-- C1 (witness): the spec's own scenario — a `language` field and an
`image` file with boundary `XYZ` — decodes to exactly those two entries. -/
theorem C1_parse_roundtrip_witness :
    parseFormData (some "multipart/form-data; boundary=XYZ")
        (mkBody "XYZ" [PartSpec.fieldP "language" "lav",
                       PartSpec.fileP "image" "scan.png" "image/png" "DATA"]) =
      Except.ok ⟨[("language", some "lav")],
                 [("image", ⟨"scan.png", "image/png", "DATA"⟩)]⟩ := by
  have h := (C1_parse_roundtrip (some "multipart/form-data; boundary=XYZ") "XYZ"
      [PartSpec.fieldP "language" "lav", PartSpec.fileP "image" "scan.png" "image/png" "DATA"]
      (by rfl) (by decide) (by decide) (by decide) (by decide)).1
  rw [h]
  rfl
